import Mathlib

/- Verification of the pickleball open-play scheduler engine (src/app.py)
   against its design specification.

   Shallow embedding: players are identifiers of an arbitrary type with
   decidable equality.  The Python dict data["streaks"] (read through
   .get(p, 0)) is modelled as a total function with default 0, and dict
   assignment as pointwise update.  File I/O, Streamlit UI calls and the
   random initial shuffle sit outside the engine and are not modelled. -/

/-- The constant MAX_STREAK from app.py: max consecutive games per player. -/
def MAX_STREAK : Nat := 2

/-- One entry of data["history"]: the record appended by process_court_result. -/
structure MatchRec (α : Type) where
  court : Nat
  winners : List α
  losers : List α
deriving DecidableEq

/-- The session state data = {players, queue, courts, streaks, history}. -/
structure AppState (α : Type) where
  players : List α
  queue : List α
  courts : List (List α)
  streaks : α → Nat
  history : List (MatchRec α)

variable {α : Type} [DecidableEq α]

/-- Pointwise update of the streaks dict: data["streaks"][p] = v. -/
def updStreak (s : α → Nat) (p : α) (v : Nat) : α → Nat :=
  fun q => if q = p then v else s q

/-- The list itertools.combinations(l, 2) of Python, in its enumeration order. -/
def pairsC : List α → List (α × α)
  | [] => []
  | x :: xs => xs.map (fun y => (x, y)) ++ pairsC xs

/-- The four lineup players of a match record: winners followed by losers. -/
def lineup (m : MatchRec α) : List α :=
  m.winners ++ m.losers

/-- The function count_repeat_matches of app.py: for each past match, count the current pairs
    that occur (in either tuple order) among the pairs of the lineup of that match. -/
def count_repeat_matches (players : List α) (history : List (MatchRec α)) : Nat :=
  history.foldl
    (fun repeats m =>
      repeats +
        (pairsC players).countP
          (fun p => (pairsC (lineup m)).contains p ||
                    (pairsC (lineup m)).contains (p.2, p.1)))
    0

/-- The candidate-selection scan shared by assign_court and
    process_court_result: best_candidate = queue[0]; a later candidate
    replaces it only when its repeat count is strictly smaller.
    q0 is queue[0] and queue is the full queue being scanned. -/
def bestCandidate (staying : List α) (hist : List (MatchRec α)) (q0 : α)
    (queue : List α) : α :=
  (queue.foldl
    (fun acc c =>
      let r := count_repeat_matches (staying ++ [c]) hist
      if r < acc.2 then (c, r) else acc)
    (q0, count_repeat_matches (staying ++ [q0]) hist)).1

/-- The while-loop shared by assign_court and process_court_result:
    while len(staying) < 4 and queue: move the best candidate from the queue
    onto the court.  Each iteration removes one queue element, so running it
    with fuel = queue.length runs the loop to completion. -/
def fillGo (hist : List (MatchRec α)) : Nat → List α → List α → List α × List α
  | 0, staying, queue => (staying, queue)
  | fuel + 1, staying, queue =>
    if staying.length < 4 then
      match queue with
      | [] => (staying, [])
      | q0 :: t =>
        let b := bestCandidate staying hist q0 (q0 :: t)
        fillGo hist fuel (staying ++ [b]) ((q0 :: t).erase b)
    else (staying, queue)

/-- The fill loop at its call sites: fuel is the length of the queue. -/
def fillLoop (hist : List (MatchRec α)) (staying queue : List α) :
    List α × List α :=
  fillGo hist queue.length staying queue

/-- The function assign_court of app.py: keep on-court players with streak < MAX_STREAK, then
    fill the remaining spots from the queue.  Callers pass in-range court
    indices; an out-of-range read gives [] and out-of-range set is the
    identity. -/
def assign_court (st : AppState α) (i : Nat) : AppState α :=
  let staying := (st.courts.getD i []).filter
    (fun p => decide (st.streaks p < MAX_STREAK))
  let r := fillLoop st.history staying st.queue
  { st with courts := st.courts.set i r.1, queue := r.2 }

/-- The function assign_all_courts of app.py: assign_court(i) for i in range(num_courts). -/
def assign_all_courts (st : AppState α) (numCourts : Nat) : AppState α :=
  (List.range numCourts).foldl (fun s i => assign_court s i) st

/-- One iteration of the "Handle winners" loop of process_court_result,
    acting on the accumulator (new_court, queue, streaks): a winner below
    MAX_STREAK stays on the court with streak + 1, a streak-capped winner is
    reset to 0 and appended to the queue. -/
def winStep (acc : List α × List α × (α → Nat)) (w : α) :
    List α × List α × (α → Nat) :=
  let k := acc.2.2 w
  if k < MAX_STREAK then (acc.1 ++ [w], acc.2.1, updStreak acc.2.2 w (k + 1))
  else (acc.1, acc.2.1 ++ [w], updStreak acc.2.2 w 0)

/-- The "Handle winners" loop of process_court_result, threading
    (new_court, queue, streaks); new_court starts empty. -/
def handleWinners (s : α → Nat) (queue : List α) (winners : List α) :
    List α × List α × (α → Nat) :=
  winners.foldl winStep ([], queue, s)

/-- One iteration of the "Handle losers" loop: reset the streak of the loser to 0
    and append the loser to the queue. -/
def loseStep (acc : List α × (α → Nat)) (l : α) : List α × (α → Nat) :=
  (acc.1 ++ [l], updStreak acc.2 l 0)

/-- The "Handle losers" loop of process_court_result, threading
    (queue, streaks). -/
def handleLosers (s : α → Nat) (queue : List α) (losers : List α) :
    List α × (α → Nat) :=
  losers.foldl loseStep (queue, s)

/-- The function process_court_result of app.py: reject a court with fewer than 4 players
    (warning, no state change); otherwise split winners/losers on
    winning_team == "Team 1", run the winners and losers loops, rebuild the
    court through the fill loop, and append the match record (the court
    field is stored 1-based: court_index + 1). -/
def process_court_result (st : AppState α) (i : Nat) (team : String) :
    AppState α :=
  let court := st.courts.getD i []
  if court.length < 4 then st
  else
    let winners := if team = "Team 1" then court.take 2 else court.drop 2
    let losers := if team = "Team 1" then court.drop 2 else court.take 2
    let hw := handleWinners st.streaks st.queue winners
    let hl := handleLosers hw.2.2 hw.2.1 losers
    let r := fillLoop st.history hw.1 hl.1
    { st with
      courts := st.courts.set i r.1,
      queue := r.2,
      streaks := hl.2,
      history := st.history ++ [⟨i + 1, winners, losers⟩] }

/-- Spec-side description of the selection rule (§4.2 of the spec): the
    running best candidate is replaced only by a later candidate whose score
    is strictly smaller, so the result is the earliest minimiser. -/
def firstArgmin (f : α → Nat) : α → List α → α
  | b, [] => b
  | b, c :: cs => if f c < f b then firstArgmin f c cs else firstArgmin f b cs

/-- Spec-side repeat count, written from the words of the claim: sum, over every
    unordered pair of distinct players (enumerated once each by pairsC on a
    duplicate-free list), of the number of match records whose four lineup
    players contain both members of the pair. -/
def specRepeatCount (players : List α) (history : List (MatchRec α)) : Nat :=
  ((pairsC players).map
    (fun p => history.countP
      (fun m => (lineup m).contains p.1 && (lineup m).contains p.2))).sum

/-- A reachable state (players 0..4 named A..E): court 0 holds [0,1,2,3],
    player 0 carries streak MAX_STREAK (e.g. it just won its second game in
    a row), player 4 waits in the queue. -/
def stC1 : AppState Nat :=
  ⟨[0, 1, 2, 3, 4], [4], [[0, 1, 2, 3]], fun p => if p = 0 then 2 else 0, []⟩

/-- A full court with no history and all streaks 0. -/
def stC2 : AppState Nat :=
  ⟨[0, 1, 2, 3], [], [[0, 1, 2, 3]], fun _ => 0, []⟩

/-- A stable state in the sense of claim C3 (court complete, queue empty) whose
    on-court player 0 carries streak MAX_STREAK. -/
def stC3 : AppState Nat :=
  ⟨[0, 1, 2, 3], [], [[0, 1, 2, 3]], fun p => if p = 0 then 2 else 0, []⟩

/-- A stable state with every on-court streak below MAX_STREAK. -/
def stC3w : AppState Nat :=
  ⟨[0, 1, 2, 3], [], [[0, 1, 2, 3]], fun _ => 0, []⟩

/-- A full court with a waiting queue, all streaks 0, no history. -/
def stC4w : AppState Nat :=
  ⟨[0, 1, 2, 3, 4, 5], [4, 5], [[0, 1, 2, 3]], fun _ => 0, []⟩

/-- A full court whose first winner carries streak MAX_STREAK. -/
def stC6w : AppState Nat :=
  ⟨[0, 1, 2, 3], [], [[0, 1, 2, 3]], fun p => if p = 0 then 2 else 0, []⟩

/-- An empty court 0, five queued players, no history. -/
def stC7w : AppState Nat :=
  ⟨[0, 1, 2, 3, 4], [0, 1, 2, 3, 4], [[]], fun _ => 0, []⟩

/-- Two full courts with a waiting queue, all streaks 0. -/
def stC9w : AppState Nat :=
  ⟨[0, 1, 2, 3, 4, 5, 6, 7, 8, 9], [8, 9],
   [[0, 1, 2, 3], [4, 5, 6, 7]], fun _ => 0, []⟩

/- ───────────────────────── helper lemmas ───────────────────────── -/

theorem getD_set_self {β : Type} (l : List β) (i : Nat) (v d : β)
    (h : i < l.length) : (l.set i v).getD i d = v := by
  simp [List.getD_eq_getElem?_getD, List.getElem?_set_eq_of_lt v h]

theorem getD_set_ne {β : Type} (l : List β) (i j : Nat) (v d : β)
    (h : j ≠ i) : (l.set i v).getD j d = l.getD j d := by
  simp [List.getD_eq_getElem?_getD, List.getElem?_set_ne (Ne.symm h)]

theorem getD_eq_default_of_le {β : Type} (l : List β) (i : Nat) (d : β)
    (h : l.length ≤ i) : l.getD i d = d := by
  simp [List.getD_eq_getElem?_getD, List.getElem?_eq_none h]

theorem set_getD_self {β : Type} (l : List β) (i : Nat) (d : β)
    (h : i < l.length) : l.set i (l.getD i d) = l := by
  have hg : l.getD i d = l[i] := by
    simp [List.getD_eq_getElem?_getD, List.getElem?_eq_getElem h]
  rw [hg]
  apply List.ext_getElem
  · simp
  · intro n h1 h2
    rcases eq_or_ne n i with rfl | hne
    · simp [List.getElem_set]
    · rw [List.getElem_set, if_neg (Ne.symm hne)]

theorem firstArgmin_mem (f : α → Nat) :
    ∀ (l : List α) (b : α), firstArgmin f b l ∈ b :: l := by
  intro l
  induction l with
  | nil => intro b; simp [firstArgmin]
  | cons c cs ih =>
    intro b
    rw [firstArgmin]
    split
    · have := ih c
      simp only [List.mem_cons] at this ⊢
      tauto
    · have := ih b
      simp only [List.mem_cons] at this ⊢
      tauto

theorem firstArgmin_le (f : α → Nat) :
    ∀ (l : List α) (b : α) (c : α), c ∈ b :: l →
      f (firstArgmin f b l) ≤ f c := by
  intro l
  induction l with
  | nil => intro b c hc; simp at hc; simp [firstArgmin, hc]
  | cons x xs ih =>
    intro b c hc
    rw [firstArgmin]
    simp only [List.mem_cons] at hc
    by_cases hlt : f x < f b
    · rw [if_pos hlt]
      rcases hc with h1 | h1 | h1
      · rw [h1]
        exact le_trans (ih x x (by simp)) (le_of_lt hlt)
      · rw [h1]
        exact ih x x (by simp)
      · exact ih x c (by simp [h1])
    · rw [if_neg hlt]
      rcases hc with h1 | h1 | h1
      · rw [h1]
        exact ih b b (by simp)
      · rw [h1]
        exact le_trans (ih b b (by simp)) (le_of_not_lt hlt)
      · exact ih b c (by simp [h1])

theorem firstArgmin_ties (f : α → Nat) :
    ∀ (l : List α) (b : α), (∀ c ∈ l, f b ≤ f c) → firstArgmin f b l = b := by
  intro l
  induction l with
  | nil => intro b _; rfl
  | cons x xs ih =>
    intro b hb
    rw [firstArgmin]
    rw [if_neg (by exact not_lt_of_le (hb x (by simp)))]
    exact ih b (fun c hc => hb c (by simp [hc]))

theorem foldl_pick (f : α → Nat) :
    ∀ (l : List α) (b : α),
      (l.foldl (fun acc c => if f c < acc.2 then (c, f c) else acc)
        (b, f b)).1 = firstArgmin f b l := by
  intro l
  induction l with
  | nil => intro b; rfl
  | cons c cs ih =>
    intro b
    rw [List.foldl_cons, firstArgmin]
    by_cases h : f c < f b
    · simp only [if_pos h]
      exact ih c
    · simp only [if_neg h]
      exact ih b

theorem bestCandidate_eq (staying : List α) (hist : List (MatchRec α))
    (q0 : α) (t : List α) :
    bestCandidate staying hist q0 (q0 :: t) =
      firstArgmin (fun c => count_repeat_matches (staying ++ [c]) hist) q0 t := by
  have h := foldl_pick (fun c => count_repeat_matches (staying ++ [c]) hist)
    (q0 :: t) q0
  rw [firstArgmin, if_neg (lt_irrefl _)] at h
  exact h

theorem bestCandidate_mem (staying : List α) (hist : List (MatchRec α))
    (q0 : α) (t : List α) :
    bestCandidate staying hist q0 (q0 :: t) ∈ q0 :: t := by
  rw [bestCandidate_eq]
  exact firstArgmin_mem _ t q0

theorem fillGo_spec (hist : List (MatchRec α)) :
    ∀ (fuel : Nat) (s q : List α),
      ∃ picks : List α,
        (fillGo hist fuel s q).1 = s ++ picks ∧
        (fillGo hist fuel s q).2 = picks.foldl (fun qq b => qq.erase b) q ∧
        (fillGo hist fuel s q).2.Sublist q := by
  intro fuel
  induction fuel with
  | zero =>
    intro s q
    exact ⟨[], by simp [fillGo], by simp [fillGo], by simp [fillGo]⟩
  | succ fuel ih =>
    intro s q
    simp only [fillGo]
    by_cases hlt : s.length < 4
    · rw [if_pos hlt]
      match q with
      | [] => exact ⟨[], by simp, by simp, by simp⟩
      | q0 :: t =>
        obtain ⟨picks, h1, h2, h3⟩ :=
          ih (s ++ [bestCandidate s hist q0 (q0 :: t)])
            ((q0 :: t).erase (bestCandidate s hist q0 (q0 :: t)))
        refine ⟨bestCandidate s hist q0 (q0 :: t) :: picks, ?_, ?_, ?_⟩
        · rw [h1, List.append_assoc]
          rfl
        · rw [h2]
          rfl
        · exact h3.trans (List.erase_sublist _ _)
    · rw [if_neg hlt]
      exact ⟨[], by simp, by simp, by simp⟩

theorem fillGo_of_not_lt (hist : List (MatchRec α)) (fuel : Nat)
    (s q : List α) (h : ¬ s.length < 4) : fillGo hist fuel s q = (s, q) := by
  cases fuel with
  | zero => rfl
  | succ fuel => simp only [fillGo, if_neg h]

theorem count_repeat_matches_nil (players : List α) :
    count_repeat_matches players ([] : List (MatchRec α)) = 0 := rfl

theorem bestCandidate_nil_hist (staying : List α) (q0 : α) (t : List α) :
    bestCandidate staying ([] : List (MatchRec α)) q0 (q0 :: t) = q0 := by
  rw [bestCandidate_eq]
  exact firstArgmin_ties _ t q0 (fun c _ => le_refl _)

theorem fillGo_nil_hist :
    ∀ (fuel : Nat) (s q : List α), q.length ≤ fuel →
      fillGo ([] : List (MatchRec α)) fuel s q =
        (s ++ q.take (4 - s.length), q.drop (4 - s.length)) := by
  intro fuel
  induction fuel with
  | zero =>
    intro s q hq
    have : q = [] := List.length_eq_zero.mp (Nat.le_zero.mp hq)
    subst this
    simp [fillGo]
  | succ fuel ih =>
    intro s q hq
    simp only [fillGo]
    by_cases hlt : s.length < 4
    · rw [if_pos hlt]
      match q, hq with
      | [], _ => simp
      | q0 :: t, hq =>
        show fillGo [] fuel (s ++ [bestCandidate s [] q0 (q0 :: t)])
            ((q0 :: t).erase (bestCandidate s [] q0 (q0 :: t))) =
          (s ++ List.take (4 - s.length) (q0 :: t),
            List.drop (4 - s.length) (q0 :: t))
        rw [bestCandidate_nil_hist, List.erase_cons_head]
        rw [ih (s ++ [q0]) t (by simpa using Nat.le_of_succ_le_succ hq)]
        have hk : 4 - s.length = (4 - (s.length + 1)) + 1 := by omega
        rw [hk]
        simp [List.append_assoc]
    · rw [if_neg hlt]
      have hz : 4 - s.length = 0 := by omega
      simp [hz]

theorem foldl_loseStep_queue :
    ∀ (ls : List α) (acc : List α × (α → Nat)),
      (ls.foldl loseStep acc).1 = acc.1 ++ ls := by
  intro ls
  induction ls with
  | nil => intro acc; simp
  | cons l ls ih =>
    intro acc
    rw [List.foldl_cons, ih]
    simp [loseStep]

theorem foldl_loseStep_streaks_ne :
    ∀ (ls : List α) (acc : List α × (α → Nat)) (p : α), p ∉ ls →
      (ls.foldl loseStep acc).2 p = acc.2 p := by
  intro ls
  induction ls with
  | nil => intro acc p _; rfl
  | cons l ls ih =>
    intro acc p hp
    rw [List.foldl_cons, ih _ p (fun h => hp (by simp [h]))]
    simp only [loseStep, updStreak]
    rw [if_neg (fun h => hp (by simp [h]))]

theorem foldl_loseStep_streaks_mem :
    ∀ (ls : List α) (acc : List α × (α → Nat)) (p : α), p ∈ ls →
      (ls.foldl loseStep acc).2 p = 0 := by
  intro ls
  induction ls with
  | nil => intro acc p hp; simp at hp
  | cons l ls ih =>
    intro acc p hp
    by_cases hmem : p ∈ ls
    · rw [List.foldl_cons, ih _ p hmem]
    · have hpl : p = l := by
        rcases List.mem_cons.mp hp with h | h
        · exact h
        · exact absurd h hmem
      rw [List.foldl_cons, foldl_loseStep_streaks_ne ls _ p hmem]
      simp [loseStep, updStreak, hpl]

theorem foldl_winStep_streaks_ne :
    ∀ (ws : List α) (acc : List α × List α × (α → Nat)) (p : α), p ∉ ws →
      (ws.foldl winStep acc).2.2 p = acc.2.2 p := by
  intro ws
  induction ws with
  | nil => intro acc p _; rfl
  | cons w ws ih =>
    intro acc p hp
    rw [List.foldl_cons, ih _ p (fun h => hp (by simp [h]))]
    have hpw : p ≠ w := fun h => hp (by simp [h])
    simp only [winStep]
    by_cases hk : acc.2.2 w < MAX_STREAK
    · rw [if_pos hk]
      simp [updStreak, hpw]
    · rw [if_neg hk]
      simp [updStreak, hpw]

theorem foldl_add_eq {β : Type} (g : β → Nat) :
    ∀ (l : List β) (n : Nat),
      l.foldl (fun a b => a + g b) n = n + (l.map g).sum := by
  intro l
  induction l with
  | nil => intro n; simp
  | cons b l ih =>
    intro n
    rw [List.foldl_cons, ih, List.map_cons, List.sum_cons]
    omega

theorem countP_eq_sum {β : Type} (f : β → Bool) :
    ∀ l : List β, l.countP f = (l.map (fun b => if f b then 1 else 0)).sum := by
  intro l
  induction l with
  | nil => rfl
  | cons b l ih =>
    rw [List.countP_cons, ih, List.map_cons, List.sum_cons]
    omega

theorem sum_map_add {β : Type} (f g : β → Nat) :
    ∀ l : List β, (l.map (fun b => f b + g b)).sum = (l.map f).sum + (l.map g).sum := by
  intro l
  induction l with
  | nil => rfl
  | cons b l ih =>
    simp only [List.map_cons, List.sum_cons, ih]
    omega

theorem sum_map_comm {β γ : Type} (g : β → γ → Nat) :
    ∀ (l1 : List β) (l2 : List γ),
      (l1.map (fun b => (l2.map (g b)).sum)).sum =
        (l2.map (fun c => (l1.map (fun b => g b c)).sum)).sum := by
  intro l1
  induction l1 with
  | nil =>
    intro l2
    simp
  | cons b l1 ih =>
    intro l2
    simp only [List.map_cons, List.sum_cons, ih]
    rw [← sum_map_add]

theorem mem_pairsC_mem :
    ∀ {l : List α} {a b : α}, (a, b) ∈ pairsC l → a ∈ l ∧ b ∈ l := by
  intro l
  induction l with
  | nil => intro a b h; simp [pairsC] at h
  | cons x xs ih =>
    intro a b h
    rw [pairsC, List.mem_append] at h
    rcases h with h | h
    · simp only [List.mem_map] at h
      obtain ⟨y, hy, heq⟩ := h
      have hx : x = a := congrArg Prod.fst heq
      have hyb : y = b := congrArg Prod.snd heq
      subst hx
      subst hyb
      exact ⟨by simp, by simp [hy]⟩
    · obtain ⟨ha, hb⟩ := ih h
      exact ⟨by simp [ha], by simp [hb]⟩

theorem pairsC_mem_or :
    ∀ {l : List α} {a b : α}, a ≠ b → a ∈ l → b ∈ l →
      (a, b) ∈ pairsC l ∨ (b, a) ∈ pairsC l := by
  intro l
  induction l with
  | nil => intro a b _ ha _; simp at ha
  | cons x xs ih =>
    intro a b hab ha hb
    rw [pairsC]
    by_cases hax : a = x
    · subst hax
      have hbxs : b ∈ xs := by
        rcases List.mem_cons.mp hb with h | h
        · exact absurd h.symm hab
        · exact h
      left
      rw [List.mem_append]
      left
      simp only [List.mem_map]
      exact ⟨b, hbxs, rfl⟩
    · by_cases hbx : b = x
      · subst hbx
        have haxs : a ∈ xs := by
          rcases List.mem_cons.mp ha with h | h
          · exact absurd h hax
          · exact h
        right
        rw [List.mem_append]
        left
        simp only [List.mem_map]
        exact ⟨a, haxs, rfl⟩
      · have haxs : a ∈ xs := by
          rcases List.mem_cons.mp ha with h | h
          · exact absurd h hax
          · exact h
        have hbxs : b ∈ xs := by
          rcases List.mem_cons.mp hb with h | h
          · exact absurd h hbx
          · exact h
        rcases ih hab haxs hbxs with h | h
        · left
          rw [List.mem_append]
          exact Or.inr h
        · right
          rw [List.mem_append]
          exact Or.inr h

theorem pairsC_ne_of_nodup :
    ∀ {l : List α}, l.Nodup → ∀ {a b : α}, (a, b) ∈ pairsC l → a ≠ b := by
  intro l
  induction l with
  | nil => intro _ a b h; simp [pairsC] at h
  | cons x xs ih =>
    intro hnd a b h
    rw [pairsC, List.mem_append] at h
    rw [List.nodup_cons] at hnd
    rcases h with h | h
    · simp only [List.mem_map] at h
      obtain ⟨y, hy, heq⟩ := h
      have hx : x = a := congrArg Prod.fst heq
      have hyb : y = b := congrArg Prod.snd heq
      subst hx
      subst hyb
      exact fun he => hnd.1 (he ▸ hy)
    · exact ih hnd.2 h

theorem pairs_key_iff {l : List α} {a b : α} (hab : a ≠ b) :
    ((a, b) ∈ pairsC l ∨ (b, a) ∈ pairsC l) ↔ (a ∈ l ∧ b ∈ l) := by
  constructor
  · intro h
    rcases h with h | h
    · exact mem_pairsC_mem h
    · obtain ⟨hb, ha⟩ := mem_pairsC_mem h
      exact ⟨ha, hb⟩
  · intro h
    exact pairsC_mem_or hab h.1 h.2

theorem indicator_eq {players : List α} (hnd : players.Nodup)
    (p : α × α) (hp : p ∈ pairsC players) (m : MatchRec α) :
    (if ((pairsC (lineup m)).contains p ||
         (pairsC (lineup m)).contains (p.2, p.1)) then (1 : Nat) else 0) =
      (if ((lineup m).contains p.1 && (lineup m).contains p.2)
        then (1 : Nat) else 0) := by
  obtain ⟨a, b⟩ := p
  have hab : a ≠ b := pairsC_ne_of_nodup hnd hp
  apply if_congr _ rfl rfl
  simp only [Bool.or_eq_true, Bool.and_eq_true, List.elem_eq_mem,
    decide_eq_true_eq]
  exact pairs_key_iff hab

/-- C5: for a duplicate-free player list S and any history H, the repeat
    count computed by count_repeat_matches(S, H) equals the sum, over every
    unordered pair of distinct players of S, of the number of match records
    of H whose four lineup players contain both members of the pair (a pair
    occurring in K prior matches contributes exactly K).  The right-hand
    side is specRepeatCount, written from the words of the claim. -/
theorem count_repeat_matches_correct (players : List α)
    (history : List (MatchRec α)) (hnd : players.Nodup) :
    count_repeat_matches players history = specRepeatCount players history := by
  have h1 : count_repeat_matches players history =
      (history.map (fun m => (pairsC players).countP
        (fun p => (pairsC (lineup m)).contains p ||
                  (pairsC (lineup m)).contains (p.2, p.1)))).sum := by
    unfold count_repeat_matches
    rw [foldl_add_eq (fun m => (pairsC players).countP
        (fun p => (pairsC (lineup m)).contains p ||
                  (pairsC (lineup m)).contains (p.2, p.1))) history 0]
    rw [Nat.zero_add]
  rw [h1]
  have h2 : (history.map (fun m => (pairsC players).countP
        (fun p => (pairsC (lineup m)).contains p ||
                  (pairsC (lineup m)).contains (p.2, p.1)))).sum =
      (history.map (fun m => ((pairsC players).map (fun p =>
        if ((pairsC (lineup m)).contains p ||
            (pairsC (lineup m)).contains (p.2, p.1)) then 1 else 0)).sum)).sum := by
    apply congrArg List.sum
    apply List.map_congr_left
    intro m _
    exact countP_eq_sum _ _
  rw [h2]
  rw [sum_map_comm (fun m p =>
    if ((pairsC (lineup m)).contains p ||
        (pairsC (lineup m)).contains (p.2, p.1)) then 1 else 0)
    history (pairsC players)]
  unfold specRepeatCount
  apply congrArg List.sum
  apply List.map_congr_left
  intro p hp
  rw [countP_eq_sum]
  apply congrArg List.sum
  apply List.map_congr_left
  intro m _
  exact indicator_eq hnd p hp m

/-- Witness for count_repeat_matches_correct at a concrete duplicate-free
    player list and two-match history. -/
theorem count_repeat_matches_correct_witness :
    List.Nodup [0, 1, 4] ∧
      count_repeat_matches [0, 1, 4]
          [⟨1, [0, 1], [2, 3]⟩, ⟨1, [0, 4], [1, 5]⟩] =
        specRepeatCount [0, 1, 4]
          [⟨1, [0, 1], [2, 3]⟩, ⟨1, [0, 4], [1, 5]⟩] :=
  ⟨by decide, count_repeat_matches_correct [0, 1, 4]
    [⟨1, [0, 1], [2, 3]⟩, ⟨1, [0, 4], [1, 5]⟩] (by decide)⟩

/-- C7: the Candidate Selector scan returns the first queue element whose
    repeat count against the partial court is minimal: it equals the
    spec-side firstArgmin (whose defining rule is "a later candidate
    replaces the current best only if strictly smaller"), its count is
    minimal over the whole queue, when no later candidate is strictly
    better the first queue element is returned (in particular whenever the
    history is empty), and filling an empty court from an empty history
    takes the first four queue elements in queue order. -/
theorem selector_first_min (staying : List α) (hist : List (MatchRec α))
    (q0 : α) (t : List α) :
    bestCandidate staying hist q0 (q0 :: t) =
      firstArgmin (fun c => count_repeat_matches (staying ++ [c]) hist) q0 t ∧
    bestCandidate staying hist q0 (q0 :: t) ∈ q0 :: t ∧
    (∀ c ∈ q0 :: t,
      count_repeat_matches
          (staying ++ [bestCandidate staying hist q0 (q0 :: t)]) hist ≤
        count_repeat_matches (staying ++ [c]) hist) ∧
    ((∀ c ∈ t, count_repeat_matches (staying ++ [q0]) hist ≤
        count_repeat_matches (staying ++ [c]) hist) →
      bestCandidate staying hist q0 (q0 :: t) = q0) ∧
    (hist = [] → bestCandidate staying hist q0 (q0 :: t) = q0) ∧
    (∀ (st : AppState α) (i : Nat), st.history = [] →
      i < st.courts.length → st.courts.getD i [] = [] →
      (assign_court st i).courts.getD i [] = st.queue.take 4 ∧
      (assign_court st i).queue = st.queue.drop 4) := by
  refine ⟨bestCandidate_eq staying hist q0 t, bestCandidate_mem staying hist q0 t,
    ?_, ?_, ?_, ?_⟩
  · intro c hc
    rw [bestCandidate_eq]
    exact firstArgmin_le
      (fun c => count_repeat_matches (staying ++ [c]) hist) t q0 c hc
  · intro hties
    rw [bestCandidate_eq]
    exact firstArgmin_ties _ t q0 hties
  · intro hh
    subst hh
    exact bestCandidate_nil_hist staying q0 t
  · intro st i hh hi hc
    have hfill : fillLoop st.history
        ((st.courts.getD i []).filter (fun p => decide (st.streaks p < MAX_STREAK)))
        st.queue = (st.queue.take 4, st.queue.drop 4) := by
      rw [hc, hh]
      show fillGo [] st.queue.length [] st.queue = _
      rw [fillGo_nil_hist st.queue.length [] st.queue (le_refl _)]
      simp
    constructor
    · show ((st.courts.set i _).getD i []) = _
      rw [getD_set_self _ i _ [] hi, hfill]
    · show (fillLoop st.history _ st.queue).2 = _
      rw [hfill]

/-- Witness for selector_first_min: with empty history the selector picks
    queue[0], and an empty court is filled with the first four queued
    players in order. -/
theorem selector_first_min_witness :
    bestCandidate ([] : List Nat) ([] : List (MatchRec Nat)) 0 [0, 1, 2] = 0 ∧
    (assign_court stC7w 0).courts.getD 0 [] = [0, 1, 2, 3] ∧
    (assign_court stC7w 0).queue = [4] := by
  obtain ⟨-, -, -, -, h5, h6⟩ :=
    selector_first_min ([] : List Nat) ([] : List (MatchRec Nat)) 0 [1, 2]
  obtain ⟨ha, hb⟩ := h6 stC7w 0 rfl (by decide) rfl
  refine ⟨h5 rfl, ?_, ?_⟩
  · rw [ha]
    decide
  · rw [hb]
    decide

/-- C8: the Candidate Selector is a pure function of the partial court, the
    queue and the history (so two invocations on identical inputs pick the
    same player), its pick is always an element of the queue, and one fill
    step moves exactly that pick: it is removed from the queue (first
    occurrence) and appended to the partial court. -/
theorem selector_deterministic_mem (staying : List α)
    (hist : List (MatchRec α)) (q0 : α) (t : List α) :
    bestCandidate staying hist q0 (q0 :: t) ∈ q0 :: t ∧
    (staying.length < 4 →
      fillLoop hist staying (q0 :: t) =
        fillLoop hist (staying ++ [bestCandidate staying hist q0 (q0 :: t)])
          ((q0 :: t).erase (bestCandidate staying hist q0 (q0 :: t)))) := by
  refine ⟨bestCandidate_mem staying hist q0 t, ?_⟩
  intro hlt
  show fillGo hist (t.length + 1) staying (q0 :: t) = _
  rw [fillGo, if_pos hlt]
  have herase : ((q0 :: t).erase
      (bestCandidate staying hist q0 (q0 :: t))).length = t.length := by
    rw [List.length_erase_of_mem (bestCandidate_mem staying hist q0 t)]
    rfl
  show fillGo hist t.length _ _ = fillGo hist ((q0 :: t).erase _).length _ _
  rw [herase]

/-- Witness for selector_deterministic_mem at a concrete queue. -/
theorem selector_deterministic_mem_witness :
    bestCandidate ([] : List Nat) ([] : List (MatchRec Nat)) 5 [5, 6, 7] ∈
      [5, 6, 7] ∧
    fillLoop ([] : List (MatchRec Nat)) [] [5, 6, 7] =
      fillLoop [] ([] ++ [bestCandidate ([] : List Nat) [] 5 [5, 6, 7]])
        ([5, 6, 7].erase (bestCandidate ([] : List Nat) [] 5 [5, 6, 7])) :=
  ⟨(selector_deterministic_mem [] [] 5 [6, 7]).1,
    (selector_deterministic_mem [] [] 5 [6, 7]).2 (by decide)⟩

/-- C10: the fill loop (used by assign_court and by the rebuild phase of
    process_court_result) only removes its picks from the queue, first
    occurrence each: the final court is the initial partial court extended
    by the picks, the final queue is the initial queue with exactly those
    picks erased in order, and the final queue is a subsequence of the
    initial queue, so the relative order of all non-selected queue members
    is preserved. -/
theorem fill_preserves_queue_order (hist : List (MatchRec α))
    (staying queue : List α) :
    ∃ picks : List α,
      (fillLoop hist staying queue).1 = staying ++ picks ∧
      (fillLoop hist staying queue).2 =
        picks.foldl (fun qq b => qq.erase b) queue ∧
      (fillLoop hist staying queue).2.Sublist queue :=
  fillGo_spec hist queue.length staying queue

/-- C1 (conservation violated by the code): at the reachable state stC1
    (court 0 = [0,1,2,3] with player 0 at streak MAX_STREAK, queue [4]),
    assign_court 0 silently drops player 0: the totals |queue| + Σ|courts|
    fall from 5 to 4 while the registry still holds 5 players, and player 0
    is afterwards neither in the queue nor on any court. -/
theorem refill_drops_capped_player :
    stC1.players.length = 5 ∧
    stC1.queue.length + (stC1.courts.map List.length).sum = 5 ∧
    (0 : Nat) ∈ stC1.courts.getD 0 [] ∧
    (assign_court stC1 0).queue.length +
      ((assign_court stC1 0).courts.map List.length).sum = 4 ∧
    (0 : Nat) ∉ (assign_court stC1 0).queue ∧
    (∀ c ∈ (assign_court stC1 0).courts, (0 : Nat) ∉ c) ∧
    (assign_court stC1 0).players = stC1.players := by
  decide

/-- C2 counterexample: process_court_result on a full court with the
    unrecognised winning team "Banana" is not a no-op — it processes the
    result as a win for Team 2 ([2,3] beat [0,1]) and appends a record. -/
theorem resolve_unknown_team_not_noop :
    (process_court_result stC2 0 "Banana").history ≠ stC2.history ∧
    (process_court_result stC2 0 "Banana").history = [⟨1, [2, 3], [0, 1]⟩] := by
  decide

/-- C2 amended: a call on a court with fewer than 4 players is a complete
    no-op (the state is returned unchanged, the rejection being reported via
    a warning status); a winningTeam value other than "Team 1" is NOT
    rejected — the call behaves exactly like a "Team 2" win. -/
theorem resolve_precondition_amended :
    (∀ (st : AppState α) (i : Nat) (team : String),
      (st.courts.getD i []).length < 4 → process_court_result st i team = st) ∧
    (∀ (st : AppState α) (i : Nat) (team : String),
      team ≠ "Team 1" →
        process_court_result st i team = process_court_result st i "Team 2") := by
  constructor
  · intro st i team h
    unfold process_court_result
    rw [if_pos h]
  · intro st i team h
    have h2 : ("Team 2" : String) ≠ "Team 1" := by decide
    simp only [process_court_result, if_neg h, if_neg h2]

/-- Witness for resolve_precondition_amended: a 0-player court is left
    unchanged, and the team string "Banana" is processed as "Team 2". -/
theorem resolve_precondition_amended_witness :
    process_court_result stC7w 0 "Team 1" = stC7w ∧
    process_court_result stC2 0 "Banana" =
      process_court_result stC2 0 "Team 2" :=
  ⟨resolve_precondition_amended.1 stC7w 0 "Team 1" (by decide),
    resolve_precondition_amended.2 stC2 0 "Banana" (by decide)⟩

/-- C3 counterexample: stC3 is stable in the sense claimed (every court
    holds exactly 4 players, queue empty), yet RefillAll changes it: the
    streak-capped player 0 is dropped from court 0. -/
theorem refill_all_stable_changes_state :
    (∀ c ∈ stC3.courts, c.length = 4) ∧ stC3.queue = [] ∧
    (assign_all_courts stC3 1).courts ≠ stC3.courts := by
  decide

/-- C3 amended: RefillAll is idempotent on a stable state in which,
    additionally, the streak of every on-court player is strictly below
    MAX_STREAK: each court keeps its exact lineup, the queue stays empty,
    and streaks are untouched (assign_court never writes streaks). -/
theorem refill_all_idempotent_amended (st : AppState α)
    (hq : st.queue = [])
    (hc : ∀ c ∈ st.courts, c.length = 4)
    (hs : ∀ c ∈ st.courts, ∀ p ∈ c, st.streaks p < MAX_STREAK) :
    ∀ n : Nat, assign_all_courts st n = st := by
  obtain ⟨pl, qq, cs, sk, hh⟩ := st
  dsimp only at hq hc hs
  subst hq
  have key : ∀ i : Nat,
      assign_court (⟨pl, [], cs, sk, hh⟩ : AppState α) i = ⟨pl, [], cs, sk, hh⟩ := by
    intro i
    by_cases hi : i < cs.length
    · have hmem : cs.getD i [] ∈ cs := by
        have hg : cs.getD i [] = cs[i] := by
          simp [List.getD_eq_getElem?_getD, List.getElem?_eq_getElem hi]
        rw [hg]
        exact List.getElem_mem hi
      have hfilter : (cs.getD i []).filter
          (fun p => decide (sk p < MAX_STREAK)) = cs.getD i [] :=
        List.filter_eq_self.mpr (fun p hp => by
          simpa using hs _ hmem p hp)
      have hfill : fillLoop hh (cs.getD i []) ([] : List α) =
          (cs.getD i [], []) := rfl
      simp only [assign_court]
      rw [hfilter, hfill, set_getD_self _ _ _ hi]
    · have hgd : cs.getD i [] = [] :=
        getD_eq_default_of_le _ _ _ (le_of_not_lt hi)
      have hfill : fillLoop hh ([] : List α) ([] : List α) = ([], []) := rfl
      simp only [assign_court]
      rw [hgd, List.filter_nil, hfill,
        List.set_eq_of_length_le (le_of_not_lt hi)]
  have hfold : ∀ l : List Nat,
      l.foldl (fun s i => assign_court s i) (⟨pl, [], cs, sk, hh⟩ : AppState α) =
        ⟨pl, [], cs, sk, hh⟩ := by
    intro l
    induction l with
    | nil => rfl
    | cons j l ih => rw [List.foldl_cons, key j, ih]
  intro n
  exact hfold (List.range n)

/-- Witness for refill_all_idempotent_amended at a concrete stable state
    with all streaks 0. -/
theorem refill_all_idempotent_amended_witness :
    stC3w.queue = [] ∧ (∀ c ∈ stC3w.courts, c.length = 4) ∧
      assign_all_courts stC3w 1 = stC3w :=
  ⟨rfl, by decide,
    refill_all_idempotent_amended stC3w rfl (by decide) (by decide) 1⟩

/-- C4 counterexample: ResolveResult(0, "Team 1") at stC2 appends a record
    whose court field is 1, not the court index 0 — the code stores
    court_index + 1. -/
theorem match_record_court_one_based_cex :
    (process_court_result stC2 0 "Team 1").history.map MatchRec.court = [1] ∧
    (0 : Nat) ∉ (process_court_result stC2 0 "Team 1").history.map
      MatchRec.court := by
  decide

/-- C4 amended: every successful ResolveResult(i, team) appends exactly one
    match record, after the court rebuild and leaving all earlier records
    unchanged in place and order, whose court field is i + 1 (the 1-based
    court number), whose winners field is the 2-player winning team
    (positions 0-1 for "Team 1", else positions 2-3) and whose losers field
    is the 2-player losing team. -/
theorem match_record_append_amended (st : AppState α) (i : Nat)
    (team : String) (hlen : (st.courts.getD i []).length = 4)
    (hteam : team = "Team 1" ∨ team = "Team 2") :
    (process_court_result st i team).history =
      st.history ++ [⟨i + 1,
        (if team = "Team 1" then (st.courts.getD i []).take 2
          else (st.courts.getD i []).drop 2),
        (if team = "Team 1" then (st.courts.getD i []).drop 2
          else (st.courts.getD i []).take 2)⟩] ∧
    (if team = "Team 1" then (st.courts.getD i []).take 2
      else (st.courts.getD i []).drop 2).length = 2 ∧
    (if team = "Team 1" then (st.courts.getD i []).drop 2
      else (st.courts.getD i []).take 2).length = 2 := by
  refine ⟨?_, ?_, ?_⟩
  · simp only [process_court_result]
    rw [if_neg (by omega : ¬ (st.courts.getD i []).length < 4)]
  · have hlen2 : (st.courts[i]?.getD []).length = 4 := by
      rw [← List.getD_eq_getElem?_getD]
      exact hlen
    rcases hteam with h | h <;> subst h <;> simp [hlen2]
  · have hlen2 : (st.courts[i]?.getD []).length = 4 := by
      rw [← List.getD_eq_getElem?_getD]
      exact hlen
    rcases hteam with h | h <;> subst h <;> simp [hlen2]

/-- Witness for match_record_append_amended at stC4w with a "Team 1" win. -/
theorem match_record_append_amended_witness :
    (process_court_result stC4w 0 "Team 1").history =
      stC4w.history ++ [⟨0 + 1,
        (if ("Team 1" : String) = "Team 1" then (stC4w.courts.getD 0 []).take 2
          else (stC4w.courts.getD 0 []).drop 2),
        (if ("Team 1" : String) = "Team 1" then (stC4w.courts.getD 0 []).drop 2
          else (stC4w.courts.getD 0 []).take 2)⟩] ∧
    (if ("Team 1" : String) = "Team 1" then (stC4w.courts.getD 0 []).take 2
      else (stC4w.courts.getD 0 []).drop 2).length = 2 ∧
    (if ("Team 1" : String) = "Team 1" then (stC4w.courts.getD 0 []).drop 2
      else (stC4w.courts.getD 0 []).take 2).length = 2 :=
  match_record_append_amended stC4w 0 "Team 1" (by decide) (Or.inl rfl)

theorem resolve_streaks_frame_aux (s : α → Nat) (q ws ls : List α) (p : α)
    (hw : p ∉ ws) (hl : p ∉ ls) :
    (handleLosers (handleWinners s q ws).2.2
      (handleWinners s q ws).2.1 ls).2 p = s p := by
  unfold handleLosers handleWinners
  rw [foldl_loseStep_streaks_ne ls _ p hl]
  exact foldl_winStep_streaks_ne ws _ p hw

/-- C9 (frame of ResolveResult): a successful process_court_result(i, team)
    leaves every court with index j ≠ i unchanged, leaves the streak of
    every player not on court i unchanged, leaves the registered-players
    list unchanged, and only appends one record to the match history. -/
theorem resolve_frame (st : AppState α) (i : Nat) (team : String)
    (hlen : (st.courts.getD i []).length = 4) :
    (∀ j, j ≠ i → (process_court_result st i team).courts.getD j [] =
      st.courts.getD j []) ∧
    (∀ p, p ∉ st.courts.getD i [] →
      (process_court_result st i team).streaks p = st.streaks p) ∧
    (process_court_result st i team).players = st.players ∧
    (∃ r : MatchRec α, (process_court_result st i team).history =
      st.history ++ [r]) := by
  have hnot : ¬ (st.courts.getD i []).length < 4 := by omega
  simp only [process_court_result, if_neg hnot]
  refine ⟨?_, ?_, trivial, ⟨_, rfl⟩⟩
  · intro j hj
    exact getD_set_ne _ _ _ _ _ hj
  · intro p hp
    have hwmem : p ∉ (if team = "Team 1" then (st.courts.getD i []).take 2
        else (st.courts.getD i []).drop 2) := by
      intro hmem
      apply hp
      rcases eq_or_ne team "Team 1" with h | h
      · rw [if_pos h] at hmem
        exact List.take_subset 2 _ hmem
      · rw [if_neg h] at hmem
        exact List.drop_subset 2 _ hmem
    have hlmem : p ∉ (if team = "Team 1" then (st.courts.getD i []).drop 2
        else (st.courts.getD i []).take 2) := by
      intro hmem
      apply hp
      rcases eq_or_ne team "Team 1" with h | h
      · rw [if_pos h] at hmem
        exact List.drop_subset 2 _ hmem
      · rw [if_neg h] at hmem
        exact List.take_subset 2 _ hmem
    exact resolve_streaks_frame_aux st.streaks st.queue _ _ p hwmem hlmem

/-- Witness for resolve_frame: at stC9w (two full courts, queue [8,9]),
    resolving court 0 leaves court 1, the streak of queued player 8, and
    the player registry unchanged, and appends one history record. -/
theorem resolve_frame_witness :
    (process_court_result stC9w 0 "Team 1").courts.getD 1 [] =
      stC9w.courts.getD 1 [] ∧
    (process_court_result stC9w 0 "Team 1").streaks 8 = stC9w.streaks 8 ∧
    (process_court_result stC9w 0 "Team 1").players = stC9w.players ∧
    (∃ r : MatchRec Nat, (process_court_result stC9w 0 "Team 1").history =
      stC9w.history ++ [r]) := by
  obtain ⟨h1, h2, h3, h4⟩ := resolve_frame stC9w 0 "Team 1" (by decide)
  exact ⟨h1 1 (by decide), h2 8 (by decide), h3, h4⟩

theorem handleWinners_pair_court (s : α → Nat) (q : List α) (w1 w2 : α)
    (h21 : ¬ w2 = w1) :
    (handleWinners s q [w1, w2]).1 =
      (if s w1 < MAX_STREAK then [w1] else []) ++
        (if s w2 < MAX_STREAK then [w2] else []) := by
  by_cases h1 : s w1 < MAX_STREAK <;> by_cases h2 : s w2 < MAX_STREAK <;>
    simp [handleWinners, winStep, updStreak, h1, h2, h21]

theorem handleWinners_pair_queue (s : α → Nat) (q : List α) (w1 w2 : α)
    (h21 : ¬ w2 = w1) :
    (handleWinners s q [w1, w2]).2.1 =
      q ++ (if s w1 < MAX_STREAK then [] else [w1]) ++
        (if s w2 < MAX_STREAK then [] else [w2]) := by
  by_cases h1 : s w1 < MAX_STREAK <;> by_cases h2 : s w2 < MAX_STREAK <;>
    simp [handleWinners, winStep, updStreak, h1, h2, h21]

theorem handleWinners_pair_streaks_w1 (s : α → Nat) (q : List α)
    (w1 w2 : α) (h12 : ¬ w1 = w2) (h21 : ¬ w2 = w1) :
    (handleWinners s q [w1, w2]).2.2 w1 =
      if s w1 < MAX_STREAK then s w1 + 1 else 0 := by
  by_cases h1 : s w1 < MAX_STREAK <;> by_cases h2 : s w2 < MAX_STREAK <;>
    simp [handleWinners, winStep, updStreak, h1, h2, h12, h21]

theorem handleWinners_pair_streaks_w2 (s : α → Nat) (q : List α)
    (w1 w2 : α) (h21 : ¬ w2 = w1) :
    (handleWinners s q [w1, w2]).2.2 w2 =
      if s w2 < MAX_STREAK then s w2 + 1 else 0 := by
  by_cases h1 : s w1 < MAX_STREAK <;> by_cases h2 : s w2 < MAX_STREAK <;>
    simp [handleWinners, winStep, updStreak, h1, h2, h21]

theorem resolve_pair_core (s : α → Nat) (q : List α) (w1 w2 l1 l2 : α)
    (h12 : w1 ≠ w2) (h1l1 : w1 ≠ l1) (h1l2 : w1 ≠ l2)
    (h2l1 : w2 ≠ l1) (h2l2 : w2 ≠ l2)
    (hb : ∀ p, s p ≤ MAX_STREAK) :
    (∀ p, (handleLosers (handleWinners s q [w1, w2]).2.2
      (handleWinners s q [w1, w2]).2.1 [l1, l2]).2 p ≤ MAX_STREAK) ∧
    (∀ w ∈ [w1, w2], s w < MAX_STREAK →
      (handleLosers (handleWinners s q [w1, w2]).2.2
        (handleWinners s q [w1, w2]).2.1 [l1, l2]).2 w = s w + 1 ∧
      w ∈ (handleWinners s q [w1, w2]).1) ∧
    (∀ w ∈ [w1, w2], ¬ s w < MAX_STREAK →
      (handleLosers (handleWinners s q [w1, w2]).2.2
        (handleWinners s q [w1, w2]).2.1 [l1, l2]).2 w = 0) ∧
    (∀ l ∈ [l1, l2], (handleLosers (handleWinners s q [w1, w2]).2.2
      (handleWinners s q [w1, w2]).2.1 [l1, l2]).2 l = 0) ∧
    (handleLosers (handleWinners s q [w1, w2]).2.2
        (handleWinners s q [w1, w2]).2.1 [l1, l2]).1 =
      q ++ [w1, w2].filter (fun w => decide (¬ s w < MAX_STREAK)) ++ [l1, l2] := by
  have h21 : ¬ w2 = w1 := fun h => h12 h.symm
  have hfin_ne : ∀ p, p ∉ [l1, l2] →
      (handleLosers (handleWinners s q [w1, w2]).2.2
        (handleWinners s q [w1, w2]).2.1 [l1, l2]).2 p =
      (handleWinners s q [w1, w2]).2.2 p := fun p hp =>
    foldl_loseStep_streaks_ne [l1, l2] _ p hp
  have hfin_mem : ∀ p, p ∈ [l1, l2] →
      (handleLosers (handleWinners s q [w1, w2]).2.2
        (handleWinners s q [w1, w2]).2.1 [l1, l2]).2 p = 0 := fun p hp =>
    foldl_loseStep_streaks_mem [l1, l2] _ p hp
  have hw1 := handleWinners_pair_streaks_w1 s q w1 w2 h12 h21
  have hw2 := handleWinners_pair_streaks_w2 s q w1 w2 h21
  have hwne : ∀ p, p ∉ [w1, w2] → (handleWinners s q [w1, w2]).2.2 p = s p :=
    fun p hp => foldl_winStep_streaks_ne [w1, w2] _ p hp
  refine ⟨?_, ?_, ?_, ?_, ?_⟩
  · intro p
    by_cases hpl : p ∈ [l1, l2]
    · rw [hfin_mem p hpl]
      exact Nat.zero_le _
    · rw [hfin_ne p hpl]
      by_cases hp1 : p = w1
      · subst hp1
        rw [hw1]
        have := hb p
        split <;> omega
      · by_cases hp2 : p = w2
        · subst hp2
          rw [hw2]
          have := hb p
          split <;> omega
        · rw [hwne p (by simp [hp1, hp2])]
          exact hb p
  · intro w hw hlt
    have hwl : w ∉ [l1, l2] := by
      rcases List.mem_cons.mp hw with h | h
      · subst h
        simp [h1l1, h1l2]
      · simp only [List.mem_singleton] at h
        subst h
        simp [h2l1, h2l2]
    constructor
    · rw [hfin_ne w hwl]
      rcases List.mem_cons.mp hw with h | h
      · subst h
        rw [hw1, if_pos hlt]
      · simp only [List.mem_singleton] at h
        subst h
        rw [hw2, if_pos hlt]
    · rw [handleWinners_pair_court s q w1 w2 h21]
      rcases List.mem_cons.mp hw with h | h
      · subst h
        rw [if_pos hlt]
        simp
      · simp only [List.mem_singleton] at h
        subst h
        rw [if_pos hlt]
        simp
  · intro w hw hge
    have hwl : w ∉ [l1, l2] := by
      rcases List.mem_cons.mp hw with h | h
      · subst h
        simp [h1l1, h1l2]
      · simp only [List.mem_singleton] at h
        subst h
        simp [h2l1, h2l2]
    rw [hfin_ne w hwl]
    rcases List.mem_cons.mp hw with h | h
    · subst h
      rw [hw1, if_neg hge]
    · simp only [List.mem_singleton] at h
      subst h
      rw [hw2, if_neg hge]
  · intro l hl
    exact hfin_mem l hl
  · have hq1 : (handleLosers (handleWinners s q [w1, w2]).2.2
        (handleWinners s q [w1, w2]).2.1 [l1, l2]).1 =
      (handleWinners s q [w1, w2]).2.1 ++ [l1, l2] :=
      foldl_loseStep_queue [l1, l2] _
    rw [hq1, handleWinners_pair_queue s q w1 w2 h21]
    by_cases h1 : s w1 < MAX_STREAK <;> by_cases h2 : s w2 < MAX_STREAK
    · simp [h1, h2, List.filter_cons, List.filter_nil,
        Nat.not_le.mpr h1, Nat.not_le.mpr h2]
    · simp [h1, h2, List.filter_cons, List.filter_nil,
        Nat.not_le.mpr h1, Nat.le_of_not_lt h2]
    · simp [h1, h2, List.filter_cons, List.filter_nil,
        Nat.le_of_not_lt h1, Nat.not_le.mpr h2]
    · simp [h1, h2, List.filter_cons, List.filter_nil,
        Nat.le_of_not_lt h1, Nat.le_of_not_lt h2]

theorem exists_four {l : List α} (h : l.length = 4) :
    ∃ a b c d : α, l = [a, b, c, d] := by
  rcases l with _ | ⟨a, _ | ⟨b, _ | ⟨c, _ | ⟨d, _ | ⟨e, t⟩⟩⟩⟩⟩
  · simp at h
  · simp at h
  · simp at h
  · simp at h
  · exact ⟨a, b, c, d, rfl⟩
  · simp at h

theorem nodup_four {a b c d : α} (h : ([a, b, c, d] : List α).Nodup) :
    a ≠ b ∧ a ≠ c ∧ a ≠ d ∧ b ≠ c ∧ b ≠ d ∧ c ≠ d := by
  refine ⟨?_, ?_, ?_, ?_, ?_, ?_⟩ <;> intro he <;> subst he <;> simp at h

/-- C6: after a successful ResolveResult on a full duplicate-free court in a
    state whose streaks are all bounded by MAX_STREAK, no streak exceeds
    MAX_STREAK; a winner with streak < MAX_STREAK gets streak + 1 and stays
    on court i; a winner whose streak equals MAX_STREAK is reset to 0; every
    loser is reset to 0; and the queue handed to the rebuild phase is the
    old queue with the streak-capped winners and then the losers appended
    at the tail (the rebuild phase may of course draw them back). -/
theorem resolve_streak_policy (st : AppState α) (i : Nat) (team : String)
    (court winners losers : List α)
    (hcourt : court = st.courts.getD i [])
    (hlen : court.length = 4)
    (hnd : court.Nodup)
    (hwin : winners = if team = "Team 1" then court.take 2 else court.drop 2)
    (hlos : losers = if team = "Team 1" then court.drop 2 else court.take 2)
    (hb : ∀ p, st.streaks p ≤ MAX_STREAK) :
    (∀ p, (process_court_result st i team).streaks p ≤ MAX_STREAK) ∧
    (∀ w ∈ winners, st.streaks w < MAX_STREAK →
      (process_court_result st i team).streaks w = st.streaks w + 1 ∧
      w ∈ (process_court_result st i team).courts.getD i []) ∧
    (∀ w ∈ winners, st.streaks w = MAX_STREAK →
      (process_court_result st i team).streaks w = 0) ∧
    (∀ l ∈ losers, (process_court_result st i team).streaks l = 0) ∧
    (handleLosers (handleWinners st.streaks st.queue winners).2.2
        (handleWinners st.streaks st.queue winners).2.1 losers).1 =
      st.queue ++
        winners.filter (fun w => decide (¬ st.streaks w < MAX_STREAK)) ++
        losers := by
  subst hcourt
  subst hwin
  subst hlos
  have hnot : ¬ (st.courts.getD i []).length < 4 := by omega
  have hi : i < st.courts.length := by
    by_contra hig
    rw [getD_eq_default_of_le st.courts i [] (le_of_not_lt hig)] at hlen
    simp at hlen
  obtain ⟨a, b, c, d, habcd⟩ := exists_four hlen
  rw [habcd] at hnd
  obtain ⟨hab, hac, had, hbc, hbd, hcd⟩ := nodup_four hnd
  have htake : ([a, b, c, d] : List α).take 2 = [a, b] := rfl
  have hdrop : ([a, b, c, d] : List α).drop 2 = [c, d] := rfl
  have hnot4 : ¬ ([a, b, c, d] : List α).length < 4 := by simp
  by_cases hteam : team = "Team 1"
  · simp only [process_court_result, if_neg hnot, if_neg hnot4,
      if_pos hteam, habcd, htake, hdrop]
    obtain ⟨B1, B2, B3, B4, B5⟩ :=
      resolve_pair_core st.streaks st.queue a b c d hab hac had hbc hbd hb
    refine ⟨B1, ?_, ?_, B4, B5⟩
    · intro w hw hlt
      obtain ⟨hsw, hmem⟩ := B2 w hw hlt
      refine ⟨hsw, ?_⟩
      rw [getD_set_self _ _ _ _ hi]
      obtain ⟨picks, hp1, -, -⟩ := fillGo_spec st.history
        (handleLosers (handleWinners st.streaks st.queue [a, b]).2.2
          (handleWinners st.streaks st.queue [a, b]).2.1 [c, d]).1.length
        (handleWinners st.streaks st.queue [a, b]).1
        (handleLosers (handleWinners st.streaks st.queue [a, b]).2.2
          (handleWinners st.streaks st.queue [a, b]).2.1 [c, d]).1
      rw [fillLoop, hp1]
      exact List.mem_append_left _ hmem
    · intro w hw heq
      exact B3 w hw (by omega)
  · simp only [process_court_result, if_neg hnot, if_neg hnot4,
      if_neg hteam, habcd, htake, hdrop]
    obtain ⟨B1, B2, B3, B4, B5⟩ :=
      resolve_pair_core st.streaks st.queue c d a b hcd
        (Ne.symm hac) (Ne.symm hbc) (Ne.symm had) (Ne.symm hbd) hb
    refine ⟨B1, ?_, ?_, B4, B5⟩
    · intro w hw hlt
      obtain ⟨hsw, hmem⟩ := B2 w hw hlt
      refine ⟨hsw, ?_⟩
      rw [getD_set_self _ _ _ _ hi]
      obtain ⟨picks, hp1, -, -⟩ := fillGo_spec st.history
        (handleLosers (handleWinners st.streaks st.queue [c, d]).2.2
          (handleWinners st.streaks st.queue [c, d]).2.1 [a, b]).1.length
        (handleWinners st.streaks st.queue [c, d]).1
        (handleLosers (handleWinners st.streaks st.queue [c, d]).2.2
          (handleWinners st.streaks st.queue [c, d]).2.1 [a, b]).1
      rw [fillLoop, hp1]
      exact List.mem_append_left _ hmem
    · intro w hw heq
      exact B3 w hw (by omega)

/-- Witness for resolve_streak_policy at stC6w: winner 0 is streak-capped
    (reset to 0, appended to the queue before the rebuild), winner 1 gets
    streak 1 and stays, losers 2 and 3 are reset and appended. -/
theorem resolve_streak_policy_witness :
    (∀ p, (process_court_result stC6w 0 "Team 1").streaks p ≤ MAX_STREAK) ∧
    (∀ w ∈ [(0 : Nat), 1], stC6w.streaks w < MAX_STREAK →
      (process_court_result stC6w 0 "Team 1").streaks w =
        stC6w.streaks w + 1 ∧
      w ∈ (process_court_result stC6w 0 "Team 1").courts.getD 0 []) ∧
    (∀ w ∈ [(0 : Nat), 1], stC6w.streaks w = MAX_STREAK →
      (process_court_result stC6w 0 "Team 1").streaks w = 0) ∧
    (∀ l ∈ [(2 : Nat), 3],
      (process_court_result stC6w 0 "Team 1").streaks l = 0) ∧
    (handleLosers (handleWinners stC6w.streaks stC6w.queue [0, 1]).2.2
        (handleWinners stC6w.streaks stC6w.queue [0, 1]).2.1 [2, 3]).1 =
      stC6w.queue ++
        [(0 : Nat), 1].filter
          (fun w => decide (¬ stC6w.streaks w < MAX_STREAK)) ++ [2, 3] :=
  resolve_streak_policy stC6w 0 "Team 1" [0, 1, 2, 3] [0, 1] [2, 3]
    rfl rfl (by decide) (by decide) (by decide)
    (fun p => by simp only [stC6w, MAX_STREAK]; split <;> omega)
